import Mathlib

/-!
Streaming relay and chunk reassembler.

A shallow embedding of the two programs of the repository:

* `src/backend/server.js`: the WebSocket message handler that relays the
  fragments of an upstream generation stream, followed by `"END"` or `"ERROR"`;
* `src/frontend/src/App.jsx`: the client message handler (`onMessage`),
  `processBuffer`, `updateLastMessage`, `handleError` and `handleSend`.

JavaScript strings are modelled as lists of characters (`Str`); the source only
concatenates strings, compares them, splits them on ASCII separators and trims
white space of the basic plane, which act alike on characters and on UTF-16
code units.  The React
state `messages` and the ref `bufferRef.current` become fields of an explicit
client state; the functional updates `setMessages(prev => ...)` queued by one
handler are applied in the order in which they were queued.
-/

set_option autoImplicit false

/-- A JavaScript string, as the list of its characters. -/
abbrev Str := List Char

/-! ## String primitives used by the source -/

namespace JS

/-- The characters removed by `String.prototype.trim`: ECMAScript `WhiteSpace`
(TAB, VT, FF, SP, NBSP, ZWNBSP and the Unicode space separators) and
`LineTerminator` (LF, CR, LS, PS). -/
def isWhiteSpace (c : Char) : Bool :=
  [0x09, 0x0A, 0x0B, 0x0C, 0x0D, 0x20, 0xA0, 0x1680,
   0x2000, 0x2001, 0x2002, 0x2003, 0x2004, 0x2005, 0x2006, 0x2007, 0x2008, 0x2009, 0x200A,
   0x2028, 0x2029, 0x202F, 0x205F, 0x3000, 0xFEFF].contains c.toNat

/-- Removal of leading white space. -/
def trimStart (s : Str) : Str := s.dropWhile isWhiteSpace

/-- Removal of trailing white space. -/
def trimEnd (s : Str) : Str := (s.reverse.dropWhile isWhiteSpace).reverse

/-- The method `String.prototype.trim`. -/
def trim (s : Str) : Str := trimEnd (trimStart s)

/-- Put a character in front of the first part of a list of parts. -/
def pushFront (c : Char) : List Str → List Str
  | [] => [[c]]
  | p :: ps => (c :: p) :: ps

/-- The scan of `String.prototype.split` for a non-empty separator `sep`: the
first argument counts the characters of a matched separator that are still to
be skipped; otherwise the leftmost match at the current position closes the
current part. -/
def splitGo (sep : Str) : Nat → Str → List Str
  | _, [] => [[]]
  | k + 1, _ :: s => splitGo sep k s
  | 0, c :: s =>
    if sep.isPrefixOf (c :: s) then [] :: splitGo sep (sep.length - 1) s
    else pushFront c (splitGo sep 0 s)

/-- The call `s.split(sep)` for a non-empty string separator `sep` (the source
only splits on the fence and on the newline). -/
def split (sep s : Str) : List Str := splitGo sep 0 s

/-- The call `parts.join(sep)`. -/
def join (sep : Str) : List Str → Str
  | [] => []
  | [p] => p
  | p :: q :: ps => p ++ sep ++ join sep (q :: ps)

/-- The expression `a || b` on strings: the empty string is falsy. -/
def strOr (a b : Str) : Str := if a = [] then b else a

end JS

/-! ## The relay server (`src/backend/server.js`) -/

namespace Server

/-- One step of the asynchronous iteration over `result.stream`: the stream
yields a chunk whose `text()` is the given string, or the iteration throws. -/
inductive StreamStep where
  | chunk (text : Str)
  | throws
deriving DecidableEq

/-- What the upstream generation API does for one prompt: the call
`generateContentStream(prompt)` is rejected, or it gives a stream whose steps
are consumed in order; the end of the list is the normal end of the stream. -/
structure Upstream where
  startFails : Bool
  steps : List StreamStep

/-- The terminal marker. -/
def END : Str := "END".toList

/-- The error marker. -/
def ERROR : Str := "ERROR".toList

/-- The loop `for await (const chunk of result.stream) ws.send(chunk.text())`:
the messages sent so far are threaded through, and the result tells whether the
loop was left by an exception. -/
def forAwait : List StreamStep → List Str → List Str × Bool
  | [], sent => (sent, false)
  | StreamStep.chunk text :: rest, sent => forAwait rest (sent ++ [text])
  | StreamStep.throws :: _, sent => (sent, true)

/-- The handler `ws.on("message", ...)`: the list of messages sent on the
channel for the request `message`, where `genAI` gives the behaviour of the
upstream API on each prompt. -/
def onMessage (genAI : Str → Upstream) (message : Str) : List Str :=
  let prompt := message
  let result := genAI prompt
  if result.startFails then [ERROR]
  else
    match forAwait result.steps [] with
    | (sent, false) => sent ++ [END]
    | (sent, true) => sent ++ [ERROR]

/-- The fragment texts that the upstream produced before it completed or
failed. -/
def fragmentsOf (u : Upstream) : List Str :=
  if u.startFails then []
  else (u.steps.takeWhile (fun s => s != StreamStep.throws)).filterMap
    (fun s => match s with
      | StreamStep.chunk text => some text
      | StreamStep.throws => none)

/-- Whether the upstream completed normally. -/
def completes (u : Upstream) : Bool :=
  !u.startFails && !u.steps.contains StreamStep.throws

end Server

/-! ## The client (`src/frontend/src/App.jsx`) -/

namespace App

open JS

/-- The field `role` of a log entry. -/
inductive Role where
  | user
  | bot
deriving DecidableEq

/-- The field `type` of a log entry. -/
inductive MsgType where
  | text
  | code
deriving DecidableEq

/-- An entry of the state `messages`; `language` is absent on text entries. -/
structure Message where
  role : Role
  content : Str
  type : MsgType
  language : Option Str
deriving DecidableEq

/-- The client state: `bufferRef.current`, `messages` and `loading`. -/
structure Client where
  buffer : Str
  messages : List Message
  loading : Bool
deriving DecidableEq

/-- The fence delimiter. -/
def fence : Str := "```".toList

/-- The line separator. -/
def newline : Str := "\n".toList

/-- The default language tag. -/
def javascript : Str := "javascript".toList

/-- The text shown by `handleError`. -/
def errorText : Str := "An error occurred. Please try again.".toList

/-- The state before any message. -/
def initial : Client := { buffer := [], messages := [], loading := false }

/-- The function `updateLastMessage(prevMessages, content, type)`. -/
def updateLastMessage (prevMessages : List Message) (content : Str) (type : MsgType) :
    List Message :=
  match prevMessages.getLast? with
  | none => prevMessages ++ [{ role := Role.bot, content := content, type := type, language := none }]
  | some lastMessage =>
    if lastMessage.role ≠ Role.bot ∨ lastMessage.type ≠ type then
      prevMessages ++ [{ role := Role.bot, content := content, type := type, language := none }]
    else
      prevMessages.mapIdx (fun i msg =>
        if i = prevMessages.length - 1 then { msg with content := msg.content ++ content }
        else msg)

/-- The body of the loop of `processBuffer` at index `i` with `part = parts[i]`,
as a function of the log. -/
def processPart (i : Nat) (part : Str) (prev : List Message) : List Message :=
  if i % 2 = 0 then
    if trim part ≠ [] then updateLastMessage prev part MsgType.text else prev
  else
    let lines := split newline part
    let language := lines.head?.getD []
    let code := lines.tail
    let codeContent := trim (join newline code)
    prev ++ [{ role := Role.bot, content := codeContent, type := MsgType.code,
               language := some (strOr (trim (strOr language javascript)) javascript) }]

/-- The loop `for (let i = ...; i < processableLength; i++)` of `processBuffer`,
from index `i` over the processable parts that remain. -/
def forLoop : Nat → List Str → List Message → List Message
  | _, [], prev => prev
  | i, part :: rest, prev => forLoop (i + 1) rest (processPart i part prev)

/-- The function `processBuffer`. -/
def processBuffer (st : Client) : Client :=
  let buffer := st.buffer
  let parts := split fence buffer
  let hasUnclosedCodeBlock := parts.length % 2 == 0
  let processableLength := if hasUnclosedCodeBlock then parts.length - 1 else parts.length
  { st with
    messages := forLoop 0 (parts.take processableLength) st.messages
    buffer := if hasUnclosedCodeBlock then fence ++ join fence (parts.drop processableLength)
              else [] }

/-- The function `handleError`. -/
def handleError (st : Client) : Client :=
  { st with
    loading := false
    messages := st.messages ++
      [{ role := Role.bot, content := errorText, type := MsgType.text, language := none }] }

/-- The path of `onMessage` for a chunk that is not a marker:
`bufferRef.current += chunk; processBuffer()`. -/
def ingest (chunk : Str) (st : Client) : Client :=
  processBuffer { st with buffer := st.buffer ++ chunk }

/-- The handler `onMessage` of the socket, with `chunk = event.data`. -/
def onMessage (chunk : Str) (st : Client) : Client :=
  if chunk = Server.END then { st with loading := false }
  else if chunk = Server.ERROR then handleError st
  else ingest chunk st

/-- The function `handleSend`, with the current value of `input`. -/
def handleSend (input : Str) (st : Client) : Client :=
  if trim input = [] ∨ st.loading then st
  else
    { st with
      loading := true
      messages := st.messages ++
        [{ role := Role.user, content := input, type := MsgType.text, language := none }] }

/-- Handling a sequence of socket messages one after another. -/
def onMessages (chunks : List Str) (st : Client) : Client :=
  chunks.foldl (fun s chunk => onMessage chunk s) st

/-- The same, for the path that is taken when no chunk is a marker. -/
def ingestAll (chunks : List Str) (st : Client) : Client :=
  chunks.foldl (fun s chunk => ingest chunk s) st

/-- What the client reacts to: a message of the socket, or the user sending
the current input. -/
inductive Event where
  | message (chunk : Str)
  | send (input : Str)

/-- The reaction of the client to one event. -/
def step (st : Client) : Event → Client
  | Event.message chunk => onMessage chunk st
  | Event.send input => handleSend input st

/-- The reactions to a sequence of events, in order. -/
def run (events : List Event) (st : Client) : Client :=
  events.foldl step st

/-- A bot text entry. -/
def Text (content : Str) : Message :=
  { role := Role.bot, content := content, type := MsgType.text, language := none }

/-- A bot code entry. -/
def Code (language content : Str) : Message :=
  { role := Role.bot, content := content, type := MsgType.code, language := some language }

/-! ### Notions used to state the properties -/

/-- The text of a code part before its first newline. -/
def firstLine (p : Str) : Str := p.takeWhile (fun c => c != '\n')

/-- The text of a code part after its first newline (empty when there is none). -/
def afterFirstLine (p : Str) : Str := (p.dropWhile (fun c => c != '\n')).drop 1

/-- The language tag read from a code part: the trimmed first line, or the
default when that is empty. -/
def languageTag (p : Str) : Str :=
  if trim (firstLine p) = [] then javascript else trim (firstLine p)

/-- The code content read from a code part: the text after the first line,
trimmed. -/
def codeContent (p : Str) : Str := trim (afterFirstLine p)

/-- No text entry of the log is empty or made of white space only. -/
def NoBlankText (log : List Message) : Prop :=
  ∀ m ∈ log, m.type = MsgType.text → trim m.content ≠ []

/-- The last part of the split of `s` on the fence: the text after its last
delimiter. -/
def lastPart (s : Str) : Str := ((split fence s).getLast?).getD []

/-- The first part of the split of `s` on the fence: the text before its first
delimiter. -/
def firstPart (s : Str) : Str := ((split fence s).head?).getD []

/-- A fence is open at the end of `s`: the split has an even number of parts. -/
def fenceOpen (s : Str) : Bool := (split fence s).length % 2 == 0

/-- A delimiter of `t ++ f` begins in the last two characters of `t` and ends in
`f`. -/
def straddles (t f : Str) : Bool :=
  ("``".toList.isSuffixOf t && "`".toList.isPrefixOf f) ||
  ("`".toList.isSuffixOf t && "``".toList.isPrefixOf f)

/-- Two adjacent pieces of text are handled alike: one of them is empty, or
both are blank, or neither is. -/
def blankAgree (t h : Str) : Bool :=
  t.isEmpty || h.isEmpty || (decide (trim t = []) == decide (trim h = []))

/-- The cut between the text `a` received so far and the next fragment `f` is
harmless: a fence is open at the cut, or the cut lies in text, splits no
delimiter, and the text on its two sides is handled alike. -/
def goodCut (a f : Str) : Bool :=
  fenceOpen a || (!straddles (lastPart a) f && blankAgree (lastPart a) (firstPart f))

/-- Every cut of the fragment sequence `fs`, received after the text `a`, is
harmless. -/
def goodCuts : Str → List Str → Bool
  | _, [] => true
  | a, f :: fs => goodCut a f && goodCuts (a ++ f) fs

end App

/-! ## Lemmas on the string primitives -/

namespace JS

theorem splitGo_skip (sep : Str) : ∀ (s : Str) (k : Nat), splitGo sep k s = splitGo sep 0 (s.drop k)
  | [], k => by simp [splitGo]
  | _ :: _, 0 => by simp
  | _ :: s, k + 1 => by simpa [splitGo] using splitGo_skip sep s k

theorem split_nil (sep : Str) : split sep [] = [[]] := rfl

theorem split_hit (sep : Str) (c : Char) (s : Str) (h : sep.isPrefixOf (c :: s) = true) :
    split sep (c :: s) = [] :: split sep (s.drop (sep.length - 1)) := by
  simp only [split, splitGo, h, if_true]
  rw [splitGo_skip]

theorem split_miss (sep : Str) (c : Char) (s : Str) (h : sep.isPrefixOf (c :: s) = false) :
    split sep (c :: s) = pushFront c (split sep s) := by
  simp [split, splitGo, h]

theorem split_ne_nil (sep : Str) : ∀ s : Str, split sep s ≠ []
  | [] => by simp [split_nil]
  | c :: s => by
    cases h : sep.isPrefixOf (c :: s)
    · rw [split_miss sep c s h]
      cases split sep s <;> simp [pushFront]
    · rw [split_hit sep c s h]; simp

theorem pushFront_ne_nil (c : Char) (ps : List Str) : pushFront c ps ≠ [] := by
  cases ps <;> simp [pushFront]

theorem length_pushFront (c : Char) (ps : List Str) (h : ps ≠ []) :
    (pushFront c ps).length = ps.length := by
  cases ps <;> simp_all [pushFront]

end JS

/-! ## Lemmas on the split on the fence -/

namespace App

open JS

theorem length_fence : fence.length = 3 := rfl

theorem split_fence_append (r : Str) : split fence (fence ++ r) = [] :: split fence r := by
  have h : fence.isPrefixOf (fence ++ r) = true := by
    rw [List.isPrefixOf_iff_prefix]; exact List.prefix_append _ _
  have e : fence ++ r = Char.ofNat 96 :: (Char.ofNat 96 :: Char.ofNat 96 :: r) := rfl
  rw [e] at h ⊢
  rw [split_hit fence _ _ h]
  rfl

theorem fence_induction {P : Str → Prop} (nil : P [])
    (hit : ∀ r, P r → P (fence ++ r))
    (miss : ∀ c s, fence.isPrefixOf (c :: s) = false → P s → P (c :: s)) : ∀ s, P s := by
  suffices H : ∀ (n : Nat) (s : Str), s.length = n → P s from fun s => H s.length s rfl
  intro n
  induction n using Nat.strong_induction_on with
  | _ n ih =>
    intro s hn
    cases s with
    | nil => exact nil
    | cons c s =>
      cases hp : fence.isPrefixOf (c :: s)
      · exact miss c s hp (ih s.length (by simp [← hn]) s rfl)
      · obtain ⟨r, hr⟩ := List.isPrefixOf_iff_prefix.1 hp
        rw [← hr]
        refine hit r (ih r.length ?_ r rfl)
        have := congrArg List.length hr
        simp only [List.length_append, List.length_cons, length_fence] at this hn
        omega

/-- A string shorter than the fence is a single part. -/
theorem not_isPrefixOf_of_short (s : Str) (h : s.length < 3) : fence.isPrefixOf s = false := by
  cases hp : fence.isPrefixOf s
  · rfl
  · have := (List.isPrefixOf_iff_prefix.1 hp).length_le
    simp [length_fence] at this
    omega

theorem isPrefixOf_append_of_long (s b : Str) (h : 3 ≤ s.length)
    (hp : fence.isPrefixOf (s ++ b) = true) : fence.isPrefixOf s = true := by
  rw [List.isPrefixOf_iff_prefix] at hp ⊢
  exact List.prefix_of_prefix_length_le hp (List.prefix_append s b) (by simpa [length_fence] using h)

/-- Joining the parts of a split with the fence gives the string back. -/
theorem join_pushFront (c : Char) : ∀ ps : List Str, ps ≠ [] →
    join fence (pushFront c ps) = c :: join fence ps
  | [], h => absurd rfl h
  | [_], _ => rfl
  | _ :: _ :: _, _ => rfl

theorem join_split : ∀ s : Str, join fence (split fence s) = s := by
  refine fence_induction rfl ?_ ?_
  · intro r ih
    rw [split_fence_append]
    cases h : split fence r with
    | nil => exact absurd h (split_ne_nil _ _)
    | cons p ps => rw [h] at ih; simp [join, ih]
  · intro c s hp ih
    rw [split_miss _ _ _ hp, join_pushFront c _ (split_ne_nil _ _), ih]

theorem eq_of_split_singleton {s p : Str} (h : split fence s = [p]) : p = s := by
  have := join_split s
  rw [h] at this
  exact this

end App

namespace App

open JS

theorem split_short : ∀ s : Str, s.length < 3 → split fence s = [s]
  | [], _ => rfl
  | c :: s, h => by
    rw [split_miss _ _ _ (not_isPrefixOf_of_short _ h),
      split_short s (by simp at h; omega)]
    rfl

theorem split_cons_single {c : Char} {s : Str} (hs : split fence s = [s])
    (hp : fence.isPrefixOf (c :: s) = false) : split fence (c :: s) = [c :: s] := by
  rw [split_miss _ _ _ hp, hs]; rfl

theorem single_of_cons_single {c : Char} {s : Str} (h : split fence (c :: s) = [c :: s]) :
    fence.isPrefixOf (c :: s) = false ∧ split fence s = [s] := by
  cases hp : fence.isPrefixOf (c :: s)
  · refine ⟨rfl, ?_⟩
    rw [split_miss _ _ _ hp] at h
    cases hs : split fence s with
    | nil => exact absurd hs (split_ne_nil _ _)
    | cons p ps =>
      rw [hs] at h
      simp only [pushFront, List.cons.injEq] at h
      rw [h.1.2, h.2]
  · obtain ⟨r, hr⟩ := List.isPrefixOf_iff_prefix.1 hp
    rw [← hr, split_fence_append] at h
    simp at h
    exact absurd h.1.1 (by decide)

theorem lastPart_nil : lastPart [] = [] := rfl

theorem lastPart_fence_append (r : Str) : lastPart (fence ++ r) = lastPart r := by
  unfold lastPart
  rw [split_fence_append]
  cases h : split fence r with
  | nil => exact absurd h (split_ne_nil _ _)
  | cons p ps => simp [List.getLast?_cons_cons]

theorem getLast?_pushFront (c : Char) (p q : Str) (ps : List Str) :
    (pushFront c (p :: q :: ps)).getLast? = (p :: q :: ps).getLast? := by
  simp [pushFront, List.getLast?_cons_cons]

theorem dropLast_pushFront (c : Char) (p q : Str) (ps : List Str) :
    (pushFront c (p :: q :: ps)).dropLast = pushFront c (p :: q :: ps).dropLast := by
  simp [pushFront]

/-- The parts of a string are the parts before the last one, then the last. -/
theorem split_eq_dropLast_append (s : Str) :
    split fence s = (split fence s).dropLast ++ [lastPart s] := by
  unfold lastPart
  cases h : (split fence s).getLast? with
  | none => exact absurd (List.getLast?_eq_none_iff.1 h) (split_ne_nil _ _)
  | some x =>
    simp only [Option.getD_some]
    obtain ⟨ys, hys⟩ := List.getLast?_eq_some_iff.1 h
    rw [hys]; simp

/-- The last part of a split contains no delimiter. -/
theorem split_lastPart : ∀ s : Str, split fence (lastPart s) = [lastPart s] := by
  refine fence_induction rfl ?_ ?_
  · intro r ih
    rw [lastPart_fence_append]; exact ih
  · intro c s hp ih
    cases hs : split fence s with
    | nil => exact absurd hs (split_ne_nil _ _)
    | cons p ps =>
      cases ps with
      | nil =>
        have hps := eq_of_split_singleton hs
        subst hps
        have e : lastPart (c :: p) = c :: p := by
          unfold lastPart; rw [split_cons_single hs hp]; rfl
        rw [e]; exact split_cons_single hs hp
      | cons q qs =>
        have e : lastPart (c :: s) = lastPart s := by
          unfold lastPart
          rw [split_miss _ _ _ hp, hs, getLast?_pushFront]
        rw [e]; exact ih

/-- Splitting a concatenation: the parts of `a` before its last one are not
affected by what follows; the scan continues from the last part of `a`. -/
theorem split_append (b : Str) : ∀ a : Str,
    split fence (a ++ b) = (split fence a).dropLast ++ split fence (lastPart a ++ b) := by
  refine fence_induction (by simp [split_nil, lastPart_nil]) ?_ ?_
  · intro r ih
    rw [List.append_assoc, split_fence_append, split_fence_append, lastPart_fence_append, ih]
    cases h : split fence r with
    | nil => exact absurd h (split_ne_nil _ _)
    | cons p ps => simp
  · intro c s hp ih
    cases hs : split fence s with
    | nil => exact absurd hs (split_ne_nil _ _)
    | cons p ps =>
      cases ps with
      | nil =>
        have hps := eq_of_split_singleton hs
        subst hps
        have e : lastPart (c :: p) = c :: p := by
          unfold lastPart; rw [split_cons_single hs hp]; rfl
        rw [e, split_cons_single hs hp]; rfl
      | cons q qs =>
        have e : lastPart (c :: s) = lastPart s := by
          unfold lastPart
          rw [split_miss _ _ _ hp, hs, getLast?_pushFront]
        have hlen : 3 ≤ (c :: s).length := by
          by_contra hlt
          have := split_short s (by simp at hlt ⊢; omega)
          rw [hs] at this
          simp at this
        have hp2 : fence.isPrefixOf (c :: (s ++ b)) = false := by
          cases hq : fence.isPrefixOf (c :: (s ++ b))
          · rfl
          · have := isPrefixOf_append_of_long (c :: s) b hlen hq
            rw [hp] at this; exact absurd this (by simp)
        rw [e, List.cons_append, split_miss _ _ _ hp2, ih, split_miss _ _ _ hp, hs,
          dropLast_pushFront]
        simp [pushFront]

end App

namespace App

open JS

theorem split_eq_firstPart_cons (f : Str) :
    split fence f = firstPart f :: (split fence f).tail := by
  unfold firstPart
  cases h : split fence f with
  | nil => exact absurd h (split_ne_nil _ _)
  | cons p ps => rfl

theorem straddles_tail {c : Char} {t f : Str} (h : straddles (c :: t) f = false) :
    straddles t f = false := by
  cases hs : straddles t f
  · rfl
  · have key : ∀ x : Str, x.isSuffixOf t = true → x.isSuffixOf (c :: t) = true := by
      intro x hx
      rw [List.isSuffixOf_iff_suffix] at hx ⊢
      exact hx.trans (List.suffix_cons c t)
    unfold straddles at h hs
    simp only [Bool.or_eq_true, Bool.and_eq_true, Bool.or_eq_false_iff, Bool.and_eq_false_iff] at h hs
    rcases hs with ⟨h1, h2⟩ | ⟨h1, h2⟩
    · rcases h.1 with h3 | h3
      · rw [key _ h1] at h3; exact absurd h3 (by simp)
      · rw [h2] at h3; exact absurd h3 (by simp)
    · rcases h.2 with h3 | h3
      · rw [key _ h1] at h3; exact absurd h3 (by simp)
      · rw [h2] at h3; exact absurd h3 (by simp)

/-- A delimiter that begins in a delimiter-free text `t` and ends in `f`
straddles the cut. -/
theorem straddles_of_isPrefixOf {t f : Str} (hlt : t.length < 3) (hne : t ≠ [])
    (hq : fence.isPrefixOf (t ++ f) = true) : straddles t f = true := by
  obtain ⟨r, hr⟩ := List.isPrefixOf_iff_prefix.1 hq
  have e : fence ++ r = Char.ofNat 96 :: Char.ofNat 96 :: Char.ofNat 96 :: r := rfl
  rw [e] at hr
  match t, hlt, hne, hr with
  | [c], _, _, hr =>
    simp only [List.singleton_append, List.cons.injEq] at hr
    obtain ⟨hc, hf⟩ := hr
    subst hc hf
    simp [straddles, List.isSuffixOf, List.isPrefixOf]
  | [c, d], _, _, hr =>
    simp only [List.cons_append, List.nil_append, List.cons.injEq] at hr
    obtain ⟨hc, hd, hf⟩ := hr
    subst hc hd hf
    simp [straddles, List.isSuffixOf, List.isPrefixOf]

/-- When no delimiter straddles the cut after a delimiter-free text `t`, the
parts of `t ++ f` are those of `f` with `t` put in front of the first. -/
theorem split_append_of_not_straddles (f : Str) : ∀ t : Str, split fence t = [t] →
    straddles t f = false →
    split fence (t ++ f) = (t ++ firstPart f) :: (split fence f).tail
  | [], _, _ => split_eq_firstPart_cons f
  | c :: t, ht, hs => by
    obtain ⟨hp, ht2⟩ := single_of_cons_single ht
    have hp2 : fence.isPrefixOf (c :: t ++ f) = false := by
      cases hq : fence.isPrefixOf (c :: t ++ f)
      · rfl
      · by_cases hlen : 3 ≤ (c :: t).length
        · have := isPrefixOf_append_of_long (c :: t) f hlen hq
          rw [hp] at this; exact absurd this (by simp)
        · have := straddles_of_isPrefixOf (Nat.lt_of_not_le hlen) (by simp) hq
          rw [hs] at this; exact absurd this (by simp)
    rw [List.cons_append] at hp2 ⊢
    rw [split_miss _ _ _ hp2, split_append_of_not_straddles f t ht2 (straddles_tail hs)]
    rfl

end App

/-! ## Lemmas on `trim`, `updateLastMessage` and the loop -/

namespace JS

theorem trim_eq_nil_iff (s : Str) : trim s = [] ↔ ∀ c ∈ s, isWhiteSpace c = true := by
  unfold trim trimEnd trimStart
  rw [List.reverse_eq_nil_iff, List.dropWhile_eq_nil_iff]
  constructor
  · intro h
    have hnil : s.dropWhile isWhiteSpace = [] := by
      by_contra hne
      have h1 := List.head_dropWhile_not isWhiteSpace s hne
      have h2 := h _ (List.mem_reverse.2 (List.head_mem hne))
      rw [h2] at h1; exact absurd h1 (by simp)
    exact List.dropWhile_eq_nil_iff.1 hnil
  · intro h c hc
    rw [List.dropWhile_eq_nil_iff.2 h] at hc
    simp at hc

theorem trim_nil : trim [] = [] := rfl

theorem trim_append_eq_nil_iff (a b : Str) : trim (a ++ b) = [] ↔ trim a = [] ∧ trim b = [] := by
  simp only [trim_eq_nil_iff, List.mem_append]
  constructor
  · intro h; exact ⟨fun c hc => h c (Or.inl hc), fun c hc => h c (Or.inr hc)⟩
  · rintro ⟨h1, h2⟩ c (hc | hc)
    · exact h1 c hc
    · exact h2 c hc

end JS

namespace App

open JS

theorem updateLastMessage_nil (c : Str) (ty : MsgType) :
    updateLastMessage [] c ty = [{ role := Role.bot, content := c, type := ty, language := none }] :=
  rfl

/-- The last entry is a bot entry of the same type: it is extended in place. -/
theorem updateLastMessage_merge (init : List Message) (m : Message) (c : Str) (ty : MsgType)
    (hr : m.role = Role.bot) (ht : m.type = ty) :
    updateLastMessage (init ++ [m]) c ty = init ++ [{ m with content := m.content ++ c }] := by
  unfold updateLastMessage
  rw [List.getLast?_concat]
  simp only [hr, ht, ne_eq, not_true_eq_false, or_self, if_false, List.mapIdx_concat]
  congr 1
  · rw [List.mapIdx_eq_iff]
    intro i
    by_cases hi : i < init.length
    · have : i ≠ init.length := Nat.ne_of_lt hi
      simp [List.getElem?_eq_getElem hi, this]
    · simp [List.getElem?_eq_none (Nat.le_of_not_lt hi)]
  · simp

/-- The last entry is not a bot entry of the same type: a new entry is added. -/
theorem updateLastMessage_append (init : List Message) (m : Message) (c : Str) (ty : MsgType)
    (h : m.role ≠ Role.bot ∨ m.type ≠ ty) :
    updateLastMessage (init ++ [m]) c ty =
      init ++ [m] ++ [{ role := Role.bot, content := c, type := ty, language := none }] := by
  unfold updateLastMessage
  rw [List.getLast?_concat]
  simp only [if_pos h]

theorem processPart_text (i : Nat) (hi : i % 2 = 0) (t : Str) (log : List Message) :
    processPart i t log = if trim t ≠ [] then updateLastMessage log t MsgType.text else log := by
  unfold processPart; rw [if_pos hi]

theorem processPart_blank (i : Nat) (hi : i % 2 = 0) (t : Str) (ht : trim t = [])
    (log : List Message) : processPart i t log = log := by
  rw [processPart_text i hi, if_neg (by simpa using ht)]

theorem processPart_congr (i j : Nat) (h : i % 2 = j % 2) (p : Str) (log : List Message) :
    processPart i p log = processPart j p log := by
  unfold processPart; rw [h]

/-- Two text parts added one after the other, or added as one text. -/
theorem processPart_text_text (i j : Nat) (hi : i % 2 = 0) (hj : j % 2 = 0) (t h : Str)
    (hb : blankAgree t h = true) (log : List Message) :
    processPart j h (processPart i t log) = processPart i (t ++ h) log := by
  by_cases ht : trim t = []
  · by_cases hh : trim h = []
    · rw [processPart_blank i hi t ht, processPart_blank j hj h hh,
        processPart_blank i hi _ ((trim_append_eq_nil_iff t h).2 ⟨ht, hh⟩)]
    · have htn : t = [] := by
        cases t with
        | nil => rfl
        | cons c t =>
          cases h with
          | nil => exact absurd trim_nil hh
          | cons d h => simp [blankAgree, ht, hh] at hb
      subst htn
      rw [processPart_blank i hi _ trim_nil, List.nil_append]
      exact processPart_congr j i (by rw [hi, hj]) h log
  · by_cases hh : trim h = []
    · have hhn : h = [] := by
        cases h with
        | nil => rfl
        | cons d h =>
          cases t with
          | nil => exact absurd trim_nil ht
          | cons c t => simp [blankAgree, ht, hh] at hb
      subst hhn
      rw [List.append_nil]
      exact processPart_blank j hj _ trim_nil _
    · have hth : trim (t ++ h) ≠ [] := fun e => ht ((trim_append_eq_nil_iff t h).1 e).1
      rw [processPart_text i hi, processPart_text j hj, processPart_text i hi,
        if_pos ht, if_pos hh, if_pos hth]
      rcases List.eq_nil_or_concat log with hl | ⟨init, m, hl⟩
      · subst hl
        rw [updateLastMessage_nil, updateLastMessage_nil]
        exact updateLastMessage_merge [] _ h _ rfl rfl
      · subst hl
        rw [List.concat_eq_append]
        by_cases hm : m.role = Role.bot ∧ m.type = MsgType.text
        · rw [updateLastMessage_merge init m t _ hm.1 hm.2,
            updateLastMessage_merge init m (t ++ h) _ hm.1 hm.2,
            updateLastMessage_merge init { m with content := m.content ++ t } h _ hm.1 hm.2]
          simp
        · have hm2 : m.role ≠ Role.bot ∨ m.type ≠ MsgType.text := by
            by_cases h1 : m.role = Role.bot
            · exact Or.inr (fun h2 => hm ⟨h1, h2⟩)
            · exact Or.inl h1
          rw [updateLastMessage_append init m t _ hm2, updateLastMessage_append init m (t ++ h) _ hm2,
            updateLastMessage_merge (init ++ [m]) _ h _ rfl rfl]

theorem forLoop_congr : ∀ (ps : List Str) (i j : Nat), i % 2 = j % 2 → ∀ log : List Message,
    forLoop i ps log = forLoop j ps log
  | [], _, _, _, _ => rfl
  | p :: ps, i, j, h, log => by
    simp only [forLoop]
    rw [processPart_congr i j h, forLoop_congr ps (i + 1) (j + 1) (by omega)]

theorem forLoop_append : ∀ (xs ys : List Str) (i : Nat) (log : List Message),
    forLoop i (xs ++ ys) log = forLoop (i + xs.length) ys (forLoop i xs log)
  | [], _, _, _ => rfl
  | x :: xs, ys, i, log => by
    show forLoop (i + 1) (xs ++ ys) (processPart i x log) =
      forLoop (i + (xs.length + 1)) ys (forLoop (i + 1) xs (processPart i x log))
    rw [forLoop_append xs ys (i + 1)]
    congr 1
    omega

end App

/-! ## Lemmas on `processBuffer` -/

namespace App

open JS

/-- The effect of `processBuffer`, in terms of the parts of the buffer: the
parts `D` before the last one, and the last part `l`. -/
theorem processBuffer_parts (st : Client) (D : List Str) (l : Str)
    (h : split fence st.buffer = D ++ [l]) :
    processBuffer st =
      if D.length % 2 = 1 then
        { st with messages := forLoop 0 D st.messages, buffer := fence ++ l }
      else
        { st with messages := forLoop 0 (D ++ [l]) st.messages, buffer := [] } := by
  unfold processBuffer
  simp only [h, List.length_append, List.length_singleton, Nat.add_sub_cancel]
  by_cases hD : D.length % 2 = 1
  · have he : ((D.length + 1) % 2 == 0) = true := by
      rw [beq_iff_eq]; omega
    simp only [he, if_true, if_pos hD, List.take_left', List.drop_left', join]
  · have he : ((D.length + 1) % 2 == 0) = false := by
      rw [beq_eq_false_iff_ne]; omega
    have ht : List.take (D.length + 1) (D ++ [l]) = D ++ [l] :=
      List.take_of_length_le (by simp)
    simp [he, if_neg hD, ht]

/-- The effect of `ingest`, in terms of the parts of the extended buffer. -/
theorem ingest_parts (b : Str) (msgs : List Message) (ld : Bool) (c : Str) (D : List Str)
    (l : Str) (h : split fence (b ++ c) = D ++ [l]) :
    ingest c { buffer := b, messages := msgs, loading := ld } =
      if D.length % 2 = 1 then
        { buffer := fence ++ l, messages := forLoop 0 D msgs, loading := ld }
      else
        { buffer := [], messages := forLoop 0 (D ++ [l]) msgs, loading := ld } := by
  unfold ingest
  rw [processBuffer_parts _ D l h]

theorem exists_split_eq (b : Str) : ∃ D : List Str, split fence b = D ++ [lastPart b] :=
  ⟨_, split_eq_dropLast_append b⟩

theorem fenceOpen_iff (b : Str) (D : List Str) (l : Str) (h : split fence b = D ++ [l]) :
    fenceOpen b = true ↔ D.length % 2 = 1 := by
  unfold fenceOpen
  rw [h, beq_iff_eq]
  simp only [List.length_append, List.length_singleton]
  omega

theorem split_append_parts (a f : Str) (D : List Str) (h : split fence a = D ++ [lastPart a]) :
    split fence (a ++ f) = D ++ split fence (lastPart a ++ f) := by
  rw [split_append f a]
  congr 1
  rw [h, List.dropLast_concat]

theorem forLoop_cons_nil (X : List Str) (log : List Message) :
    forLoop 0 ([] :: X) log = forLoop 1 X log := by
  show forLoop (0 + 1) X (processPart 0 [] log) = forLoop 1 X log
  rw [processPart_blank 0 rfl [] trim_nil]

theorem forLoop_cons (i : Nat) (p : Str) (X : List Str) (log : List Message) :
    forLoop i (p :: X) log = forLoop (i + 1) X (processPart i p log) := rfl

theorem forLoop_append_zero (xs ys : List Str) (log : List Message) :
    forLoop 0 (xs ++ ys) log = forLoop xs.length ys (forLoop 0 xs log) := by
  rw [forLoop_append, Nat.zero_add]

theorem forLoop_nil (i : Nat) (log : List Message) : forLoop i [] log = log := rfl

/-- Handling a fragment `a` and then a fragment `f` from an empty buffer, when
the cut between them is harmless, is handling `a ++ f`. -/
theorem ingest_ingest (st : Client) (a f : Str) (hb : st.buffer = [])
    (hc : goodCut a f = true) : ingest f (ingest a st) = ingest (a ++ f) st := by
  obtain ⟨b, msgs, ld⟩ := st
  simp only at hb
  subst hb
  obtain ⟨D, hD⟩ := exists_split_eq a
  have hfo := fenceOpen_iff a D _ hD
  rw [ingest_parts [] msgs ld a D (lastPart a) hD]
  by_cases hodd : D.length % 2 = 1
  · -- a fence is open at the cut
    rw [if_pos hodd]
    obtain ⟨D2, hD2⟩ := exists_split_eq (lastPart a ++ f)
    have hw : split fence ([] ++ (a ++ f)) = (D ++ D2) ++ [lastPart (lastPart a ++ f)] := by
      rw [List.nil_append, split_append_parts a f D hD, hD2, List.append_assoc]
    have hi : split fence ((fence ++ lastPart a) ++ f) =
        ([] :: D2) ++ [lastPart (lastPart a ++ f)] := by
      rw [List.append_assoc, split_fence_append, hD2]; rfl
    rw [ingest_parts _ _ _ _ _ _ hw, ingest_parts _ _ _ _ _ _ hi]
    have hl : (D ++ D2).length % 2 = 1 ↔ ([] :: D2 : List Str).length % 2 = 1 := by
      simp only [List.length_append, List.length_cons]; omega
    by_cases h2 : ([] :: D2 : List Str).length % 2 = 1
    · rw [if_pos h2, if_pos (hl.2 h2), forLoop_cons_nil, forLoop_append_zero,
        forLoop_congr D2 D.length 1 (by omega)]
    · rw [if_neg h2, if_neg (fun h => h2 (hl.1 h)), List.cons_append, forLoop_cons_nil,
        List.append_assoc, forLoop_append_zero,
        forLoop_congr _ D.length 1 (by omega)]
  · -- the cut lies in text
    rw [if_neg hodd]
    have hno : fenceOpen a = false := by
      cases h : fenceOpen a
      · rfl
      · exact absurd (hfo.1 h) hodd
    unfold goodCut at hc
    simp only [hno, Bool.false_or, Bool.and_eq_true, Bool.not_eq_true'] at hc
    obtain ⟨hs, hbl⟩ := hc
    have hsp := split_append_of_not_straddles f (lastPart a) (split_lastPart a) hs
    have hw0 : split fence (a ++ f) = D ++ (lastPart a ++ firstPart f) :: (split fence f).tail := by
      rw [split_append_parts a f D hD, hsp]
    have hf0 := split_eq_firstPart_cons f
    have hDz : D.length % 2 = 0 := by omega
    have hL1 : forLoop 0 (D ++ [lastPart a]) msgs =
        processPart D.length (lastPart a) (forLoop 0 D msgs) := by
      rw [forLoop_append_zero]; rfl
    rw [hL1]
    rcases List.eq_nil_or_concat (split fence f).tail with hT | ⟨T, y, hT⟩
    · rw [hT] at hw0 hf0
      have hw : split fence ([] ++ (a ++ f)) = D ++ [lastPart a ++ firstPart f] := hw0
      have hi : split fence ([] ++ f) = [] ++ [firstPart f] := hf0
      rw [ingest_parts _ _ _ _ _ _ hw, ingest_parts _ _ _ _ _ _ hi, if_neg hodd,
        if_neg (by simp), List.nil_append, forLoop_append_zero, forLoop_cons,
        forLoop_cons, forLoop_nil, forLoop_nil,
        processPart_text_text D.length 0 hDz rfl _ _ hbl]
    · rw [hT, List.concat_eq_append] at hw0 hf0
      have hw : split fence ([] ++ (a ++ f)) =
          (D ++ (lastPart a ++ firstPart f) :: T) ++ [y] := by
        rw [List.nil_append, hw0]; simp
      have hi : split fence ([] ++ f) = (firstPart f :: T) ++ [y] := by
        rw [List.nil_append, hf0]; simp
      rw [ingest_parts _ _ _ _ _ _ hw, ingest_parts _ _ _ _ _ _ hi]
      have hl : (D ++ (lastPart a ++ firstPart f) :: T).length % 2 = 1 ↔
          (firstPart f :: T).length % 2 = 1 := by
        simp only [List.length_append, List.length_cons]; omega
      by_cases h2 : (firstPart f :: T).length % 2 = 1
      · rw [if_pos h2, if_pos (hl.2 h2), forLoop_append_zero, forLoop_cons,
          forLoop_cons, processPart_text_text D.length 0 hDz rfl _ _ hbl,
          forLoop_congr T (D.length + 1) (0 + 1) (by omega)]
      · rw [if_neg h2, if_neg (fun h => h2 (hl.1 h)), List.append_assoc,
          List.cons_append, List.cons_append, forLoop_append_zero, forLoop_cons, forLoop_cons,
          processPart_text_text D.length 0 hDz rfl _ _ hbl,
          forLoop_congr _ (D.length + 1) (0 + 1) (by omega)]

end App

/-! ## Lemmas on code parts and on the log invariant -/

namespace App

open JS

theorem split_newline_cons (c : Char) (s : Str) :
    split newline (c :: s) =
      if c = '\n' then [] :: split newline s else pushFront c (split newline s) := by
  have e : newline = ['\n'] := by decide
  by_cases hc : c = '\n'
  · have hp : newline.isPrefixOf (c :: s) = true := by simp [e, hc, List.isPrefixOf]
    rw [split_hit _ _ _ hp, if_pos hc]
    simp [e]
  · have hp : newline.isPrefixOf (c :: s) = false := by
      simp [e, List.isPrefixOf]
      exact fun h => hc h.symm
    rw [split_miss _ _ _ hp, if_neg hc]

theorem join_newline_split : ∀ s : Str, join newline (split newline s) = s
  | [] => rfl
  | c :: s => by
    rw [split_newline_cons]
    have ih := join_newline_split s
    cases h : split newline s with
    | nil => exact absurd h (split_ne_nil _ _)
    | cons p ps =>
      rw [h] at ih
      by_cases hc : c = '\n'
      · rw [if_pos hc]
        subst hc
        simp only [join, ih, List.nil_append]
        rfl
      · rw [if_neg hc]
        cases ps with
        | nil => simp only [pushFront, join] at ih ⊢; rw [ih]
        | cons q qs => simp only [pushFront, join, List.cons_append] at ih ⊢; rw [ih]

/-- The first line and the remaining lines of a code part, as the source
computes them, are the text before and after the first newline. -/
theorem lines_eq : ∀ p : Str,
    (split newline p).head?.getD [] = firstLine p ∧
      join newline (split newline p).tail = afterFirstLine p
  | [] => ⟨rfl, rfl⟩
  | c :: s => by
    rw [split_newline_cons]
    obtain ⟨ih1, ih2⟩ := lines_eq s
    by_cases hc : c = '\n'
    · rw [if_pos hc]
      subst hc
      refine ⟨rfl, ?_⟩
      simp only [List.tail_cons, join_newline_split]
      rfl
    · rw [if_neg hc]
      have e1 : firstLine (c :: s) = c :: firstLine s := by
        simp [firstLine, List.takeWhile_cons, hc]
      have e2 : afterFirstLine (c :: s) = afterFirstLine s := by
        simp [afterFirstLine, List.dropWhile_cons, hc]
      cases h : split newline s with
      | nil => exact absurd h (split_ne_nil _ _)
      | cons q qs =>
        rw [h] at ih1 ih2
        simp only [List.head?_cons, Option.getD_some, List.tail_cons] at ih1 ih2
        simp only [pushFront, List.head?_cons, Option.getD_some, List.tail_cons, e1, e2, ih1, ih2,
          and_self]

theorem language_eq (l : Str) :
    strOr (trim (strOr l javascript)) javascript = if trim l = [] then javascript else trim l := by
  unfold strOr
  by_cases hl : l = []
  · subst hl
    have : trim javascript = javascript := by decide
    simp [this, trim_nil]
  · simp only [if_neg hl]

theorem processPart_code (i : Nat) (hi : i % 2 = 1) (p : Str) (log : List Message) :
    processPart i p log = log ++ [Code (languageTag p) (codeContent p)] := by
  unfold processPart
  rw [if_neg (by omega)]
  simp only [language_eq, (lines_eq p).1, (lines_eq p).2]
  rfl

theorem noBlankText_append {log : List Message} {m : Message} (h : NoBlankText log)
    (hm : m.type = MsgType.text → trim m.content ≠ []) : NoBlankText (log ++ [m]) := by
  intro x hx
  rcases List.mem_append.1 hx with hx | hx
  · exact h x hx
  · rw [List.mem_singleton.1 hx]; exact hm

theorem noBlankText_processPart (i : Nat) (p : Str) (log : List Message) (h : NoBlankText log) :
    NoBlankText (processPart i p log) := by
  by_cases hi : i % 2 = 0
  · rw [processPart_text i hi]
    by_cases hp : trim p = []
    · rw [if_neg (by simpa using hp)]; exact h
    · rw [if_pos hp]
      rcases List.eq_nil_or_concat log with hl | ⟨init, m, hl⟩
      · subst hl
        rw [updateLastMessage_nil]
        exact noBlankText_append h (fun _ => hp)
      · rw [List.concat_eq_append] at hl
        subst hl
        by_cases hm : m.role = Role.bot ∧ m.type = MsgType.text
        · rw [updateLastMessage_merge init m p _ hm.1 hm.2]
          refine noBlankText_append (fun x hx => h x (List.mem_append.2 (Or.inl hx))) ?_
          intro _ hc
          exact hp ((trim_append_eq_nil_iff _ _).1 hc).2
        · have hm2 : m.role ≠ Role.bot ∨ m.type ≠ MsgType.text := by
            by_cases h1 : m.role = Role.bot
            · exact Or.inr (fun h2 => hm ⟨h1, h2⟩)
            · exact Or.inl h1
          rw [updateLastMessage_append init m p _ hm2]
          exact noBlankText_append h (fun _ => hp)
  · rw [processPart_code i (by omega)]
    exact noBlankText_append h (fun hc => by simp [Code] at hc)

theorem noBlankText_forLoop : ∀ (ps : List Str) (i : Nat) (log : List Message),
    NoBlankText log → NoBlankText (forLoop i ps log)
  | [], _, _, h => h
  | p :: ps, i, log, h =>
    noBlankText_forLoop ps (i + 1) _ (noBlankText_processPart i p log h)

theorem noBlankText_processBuffer (st : Client) (h : NoBlankText st.messages) :
    NoBlankText (processBuffer st).messages :=
  noBlankText_forLoop _ 0 _ h

theorem noBlankText_onMessage (chunk : Str) (st : Client) (h : NoBlankText st.messages) :
    NoBlankText (onMessage chunk st).messages := by
  unfold onMessage
  split
  · exact h
  · split
    · exact noBlankText_append h (fun _ => by decide)
    · exact noBlankText_processBuffer _ h

theorem noBlankText_onMessages : ∀ (chunks : List Str) (st : Client),
    NoBlankText st.messages → NoBlankText (onMessages chunks st).messages
  | [], _, h => h
  | c :: cs, st, h => noBlankText_onMessages cs _ (noBlankText_onMessage c st h)

theorem noBlankText_handleSend (input : Str) (st : Client) (h : NoBlankText st.messages) :
    NoBlankText (handleSend input st).messages := by
  unfold handleSend
  split
  · exact h
  · rename_i hc
    exact noBlankText_append h (fun _ ht => hc (Or.inl ht))

theorem noBlankText_run : ∀ (events : List Event) (st : Client),
    NoBlankText st.messages → NoBlankText (run events st).messages
  | [], _, h => h
  | Event.message c :: es, st, h => noBlankText_run es _ (noBlankText_onMessage c st h)
  | Event.send i :: es, st, h => noBlankText_run es _ (noBlankText_handleSend i st h)

/-- With an empty buffer, handling the empty fragment changes nothing. -/
theorem ingest_nil (st : Client) (hb : st.buffer = []) : ingest [] st = st := by
  obtain ⟨b, msgs, ld⟩ := st
  simp only at hb
  subst hb
  rw [ingest_parts [] msgs ld [] [] [] rfl]
  simp [forLoop, processPart_blank 0 rfl [] trim_nil]

theorem ingestAll_eq : ∀ (fs : List Str) (a : Str) (st : Client), st.buffer = [] →
    goodCuts a fs = true → ingestAll fs (ingest a st) = ingest (a ++ fs.flatten) st
  | [], a, st, _, _ => by simp [ingestAll]
  | f :: fs, a, st, hb, hc => by
    simp only [goodCuts, Bool.and_eq_true] at hc
    have ih := ingestAll_eq fs (a ++ f) st hb hc.2
    simp only [ingestAll, List.foldl_cons, List.flatten_cons] at ih ⊢
    rw [ingest_ingest st a f hb hc.1, ih, List.append_assoc]

theorem onMessages_eq_ingestAll : ∀ (fs : List Str) (st : Client),
    (∀ f ∈ fs, f ≠ Server.END ∧ f ≠ Server.ERROR) → onMessages fs st = ingestAll fs st
  | [], _, _ => rfl
  | f :: fs, st, h => by
    have hf := h f (List.mem_cons_self _ _)
    have e : onMessage f st = ingest f st := by
      unfold onMessage; rw [if_neg hf.1, if_neg hf.2]
    simp only [onMessages, ingestAll, List.foldl_cons, e]
    exact onMessages_eq_ingestAll fs _ (fun g hg => h g (List.mem_cons_of_mem _ hg))

end App

/-! ## The relay: message sequence -/

namespace Server

theorem forAwait_eq : ∀ (steps : List StreamStep) (sent : List Str),
    forAwait steps sent =
      (sent ++ (steps.takeWhile (fun s => s != StreamStep.throws)).filterMap
          (fun s => match s with
            | StreamStep.chunk text => some text
            | StreamStep.throws => none),
        steps.contains StreamStep.throws)
  | [], sent => by simp [forAwait]
  | StreamStep.chunk t :: rest, sent => by
    rw [forAwait, forAwait_eq rest]
    simp [List.takeWhile_cons]
  | StreamStep.throws :: rest, sent => by
    simp [forAwait, List.takeWhile_cons]

theorem onMessage_eq (genAI : Str → Upstream) (prompt : Str) :
    onMessage genAI prompt =
      fragmentsOf (genAI prompt) ++ [if completes (genAI prompt) then END else ERROR] := by
  unfold onMessage fragmentsOf completes
  by_cases hs : (genAI prompt).startFails = true
  · simp [hs]
  · simp only [hs, if_false, Bool.false_eq_true]
    rw [forAwait_eq]
    cases hc : (genAI prompt).steps.contains StreamStep.throws <;> simp [hc]

theorem fragmentsOf_completed (frags : List Str) :
    fragmentsOf ⟨false, frags.map StreamStep.chunk⟩ = frags ∧
      completes ⟨false, frags.map StreamStep.chunk⟩ = true := by
  unfold fragmentsOf completes
  induction frags with
  | nil => simp
  | cons f fs ih =>
    simp only [Bool.false_eq_true, if_false, List.map_cons, List.takeWhile_cons] at ih ⊢
    simp at ih ⊢
    exact ih

theorem fragmentsOf_failed (frags : List Str) (rest : List StreamStep) :
    fragmentsOf ⟨false, frags.map StreamStep.chunk ++ StreamStep.throws :: rest⟩ = frags ∧
      completes ⟨false, frags.map StreamStep.chunk ++ StreamStep.throws :: rest⟩ = false := by
  unfold fragmentsOf completes
  induction frags with
  | nil => simp [List.takeWhile_cons]
  | cons f fs ih =>
    simp only [Bool.false_eq_true, if_false, List.map_cons, List.takeWhile_cons] at ih ⊢
    simp at ih ⊢
    exact ih

/-- C4. For every prompt and every behaviour of the upstream, the messages sent
by the handler are the fragment texts produced before the stream completed or
failed, unchanged and in order, followed by one final message, `"END"` when the
upstream completed and `"ERROR"` when it failed; in particular `k` fragments
and a normal end give the `k` texts and `"END"`, `k` fragments and an error
(whatever the stream would have given afterwards) give the `k` texts and
`"ERROR"`, and a failure before the stream exists gives `"ERROR"` alone. -/
theorem relay_message_sequence (genAI : Str → Upstream) (prompt : Str) (frags : List Str)
    (rest : List StreamStep) :
    onMessage genAI prompt =
        fragmentsOf (genAI prompt) ++ [if completes (genAI prompt) then END else ERROR] ∧
      onMessage (fun _ => ⟨false, frags.map StreamStep.chunk⟩) prompt = frags ++ [END] ∧
      onMessage (fun _ => ⟨false, frags.map StreamStep.chunk ++ StreamStep.throws :: rest⟩)
          prompt = frags ++ [ERROR] ∧
      onMessage (fun _ => ⟨true, rest⟩) prompt = [ERROR] := by
  refine ⟨onMessage_eq genAI prompt, ?_, ?_, rfl⟩
  · rw [onMessage_eq, (fragmentsOf_completed frags).1, (fragmentsOf_completed frags).2]; rfl
  · rw [onMessage_eq, (fragmentsOf_failed frags rest).1, (fragmentsOf_failed frags rest).2]; rfl

end Server

/-! ## The client: scenarios -/

namespace App

open JS

set_option maxRecDepth 100000

/-- C3, as stated, fails: the two text entries of the scenario keep the newline
that separates them from the fence, so the log is not the claimed one. -/
theorem scenario_not_trimmed :
    (onMessages ["Sure, here's code:\n```py".toList, "thon\nprint(1)\n```\nDone.".toList]
        initial).messages ≠
      [Text "Sure, here's code:".toList, Code "python".toList "print(1)".toList,
        Text "Done.".toList] := by
  decide

/-- C3, amended. From the empty state, the fragments `"Sure, here's code:\n```py"`
and `"thon\nprint(1)\n```\nDone."` give three bot entries, in order: a text entry
with content `"Sure, here's code:\n"`, a code entry with language `"python"` and
content `"print(1)"`, and a text entry with content `"\nDone."`; the buffer is
empty afterwards. -/
theorem scenario_segments :
    onMessages ["Sure, here's code:\n```py".toList, "thon\nprint(1)\n```\nDone.".toList]
        initial =
      { buffer := [],
        messages := [Text "Sure, here's code:\n".toList,
          Code "python".toList "print(1)".toList, Text "\nDone.".toList],
        loading := false } := by
  decide

/-- C2, on the code. The fragments `"abc``"` and `"`def```ghi"`
give one text entry `"abc```def"` and leave `"```ghi"` in the
buffer, whereas the whole text at once gives the text `"abc"`, the code entry
with language `"def"` and empty content, and the text `"ghi"`. -/
theorem split_opening_fence_lost :
    onMessages ["abc``".toList, "`def```ghi".toList] initial =
        { buffer := "```ghi".toList, messages := [Text "abc```def".toList],
          loading := false } ∧
      onMessages ["abc```def```ghi".toList] initial =
        { buffer := [],
          messages := [Text "abc".toList, Code "def".toList [], Text "ghi".toList],
          loading := false } ∧
      (onMessages ["abc``".toList, "`def```ghi".toList] initial).messages ≠
        (onMessages ["abc```def```ghi".toList] initial).messages := by
  decide

/-- C1, as stated, fails: the fragments `"a"` and `" "` contain no delimiter,
yet handled one after the other they give the text `"a"`, and handled as the
single fragment `"a "` they give the text `"a "`. -/
theorem chunking_drops_blank_fragment :
    fenceOpen ("a".toList ++ " ".toList) = false ∧
      (onMessages ["a".toList, " ".toList] initial).messages = [Text "a".toList] ∧
      (onMessages ["a".toList ++ " ".toList] initial).messages = [Text "a ".toList] ∧
      (onMessages ["a".toList, " ".toList] initial).messages ≠
        (onMessages ["a".toList ++ " ".toList] initial).messages := by
  decide

/-- C5, as stated, fails: the upstream fragment `"END"` is forwarded unchanged,
and the client handles it as the terminal marker: no entry is added, whereas
handling it as content would add the text `"END"`. -/
theorem sentinel_collides :
    Server.onMessage (fun _ => ⟨false, [Server.StreamStep.chunk "END".toList]⟩) [] =
        ["END".toList, Server.END] ∧
      (onMessage "END".toList initial).messages = [] ∧
      (ingest "END".toList initial).messages = [Text "END".toList] ∧
      onMessage "END".toList initial ≠ ingest "END".toList initial := by
  decide

end App

/-! ## The client: general properties -/

namespace App

open JS

set_option maxRecDepth 100000

/-- C1, amended. From an empty buffer, for every fragment sequence in which no
fragment and not the whole text is a marker, and in which every cut between
fragments is harmless (a fence is open at the cut, or the cut lies in text,
splits no delimiter, and the text pieces on its two sides are both blank, both
non-blank, or one of them empty), handling the fragments one after another
gives the same log and the same buffer as handling their concatenation as a
single fragment. -/
theorem chunking_invariance_amended (fs : List Str) (st : Client) (hb : st.buffer = [])
    (hc : goodCuts [] fs = true) (hm : ∀ f ∈ fs, f ≠ Server.END ∧ f ≠ Server.ERROR)
    (hw : fs.flatten ≠ Server.END ∧ fs.flatten ≠ Server.ERROR) :
    onMessages fs st = onMessage fs.flatten st := by
  have e : onMessage fs.flatten st = ingest fs.flatten st := by
    unfold onMessage; rw [if_neg hw.1, if_neg hw.2]
  rw [e, onMessages_eq_ingestAll fs st hm]
  have h := ingestAll_eq fs [] st hb hc
  rw [ingest_nil st hb, List.nil_append] at h
  exact h

/-- C1, amended, at the fragments `"a"`, `"b```js\nx`"` and
`"`` c"`: the closing delimiter is split between the last two. -/
theorem chunking_invariance_amended_witness :
    onMessages ["a".toList, "b```js\nx`".toList, "`` c".toList] initial =
      onMessage ["a".toList, "b```js\nx`".toList, "`` c".toList].flatten initial :=
  chunking_invariance_amended _ initial rfl (by decide) (by decide) (by decide)

/-- C5, amended. A fragment other than `"END"` and `"ERROR"` is forwarded
unchanged by the server and handled by the client as content: it is appended
to the buffer, and `processBuffer` runs; a fragment equal to `"END"` or to
`"ERROR"` is forwarded unchanged as well, and the client handles it as the
marker. -/
theorem sentinel_free_fragment (f prompt : Str) (st : Client) (h1 : f ≠ Server.END)
    (h2 : f ≠ Server.ERROR) :
    Server.onMessage (fun _ => ⟨false, [Server.StreamStep.chunk f]⟩) prompt = [f, Server.END] ∧
      onMessage f st = processBuffer { st with buffer := st.buffer ++ f } ∧
      onMessage Server.END st = { st with loading := false } ∧
      onMessage Server.ERROR st = handleError st := by
  refine ⟨rfl, ?_, ?_, ?_⟩
  · unfold onMessage; rw [if_neg h1, if_neg h2]; rfl
  · unfold onMessage; rw [if_pos rfl]
  · unfold onMessage; rw [if_neg (by decide), if_pos rfl]

/-- C5, amended, at the fragment `"hello"`. -/
theorem sentinel_free_fragment_witness :
    Server.onMessage (fun _ => ⟨false, [Server.StreamStep.chunk "hello".toList]⟩) [] =
        ["hello".toList, Server.END] ∧
      onMessage "hello".toList initial =
        processBuffer { initial with buffer := initial.buffer ++ "hello".toList } ∧
      onMessage Server.END initial = { initial with loading := false } ∧
      onMessage Server.ERROR initial = handleError initial :=
  sentinel_free_fragment "hello".toList [] initial (by decide) (by decide)

/-- C6. At an odd index, the loop body of `processBuffer` appends exactly one
code entry to the log, whose language is the trimmed text before the first
newline of the part, or `"javascript"` when that is empty, and whose content is
the trimmed text after the first newline; when the part has no newline the
content is empty and the part itself is the language line.  A buffer made of a
blank text, a code part and a blank text gets exactly that entry. -/
theorem code_part_parsing (i : Nat) (p : Str) (log : List Message) (hi : i % 2 = 1) :
    processPart i p log = log ++ [Code (languageTag p) (codeContent p)] ∧
      ('\n' ∉ p → codeContent p = [] ∧
        languageTag p = if trim p = [] then javascript else trim p) ∧
      (∀ (st : Client) (t u : Str), split fence st.buffer = [t, p, u] → trim t = [] →
        trim u = [] →
        processBuffer st =
          { st with buffer := [],
                    messages := st.messages ++ [Code (languageTag p) (codeContent p)] }) := by
  refine ⟨processPart_code i hi p log, ?_, ?_⟩
  · intro hn
    have h1 : firstLine p = p := by
      unfold firstLine
      rw [List.takeWhile_eq_self_iff]
      intro c hc
      simp only [bne_iff_ne, ne_eq]
      intro h; subst h; exact hn hc
    have h2 : afterFirstLine p = [] := by
      unfold afterFirstLine
      have : p.dropWhile (fun c => c != '\n') = [] := by
        rw [List.dropWhile_eq_nil_iff]
        intro c hc
        simp only [bne_iff_ne, ne_eq]
        intro h; subst h; exact hn hc
      rw [this]; rfl
    unfold codeContent languageTag
    rw [h1, h2]
    exact ⟨rfl, rfl⟩
  · intro st t u hs ht hu
    have hs2 : split fence st.buffer = [t, p] ++ [u] := hs
    rw [processBuffer_parts st [t, p] u hs2, if_neg (by simp)]
    simp only [List.cons_append, List.nil_append, forLoop]
    rw [processPart_blank 0 rfl t ht, processPart_code (0 + 1) rfl,
      processPart_blank (0 + 1 + 1) rfl u hu]

/-- C6, at index `1`, the part `" py \nfoo\nbar "` and the empty log. -/
theorem code_part_parsing_witness :
    processPart 1 " py \nfoo\nbar ".toList [] =
        [] ++ [Code (languageTag " py \nfoo\nbar ".toList)
          (codeContent " py \nfoo\nbar ".toList)] ∧
      (codeContent "def".toList = [] ∧
        languageTag "def".toList = if trim "def".toList = [] then javascript
          else trim "def".toList) :=
  ⟨(code_part_parsing 1 " py \nfoo\nbar ".toList [] (by decide)).1,
    (code_part_parsing 1 "def".toList [] (by decide)).2.1 (by decide)⟩

/-- C7. For a non-blank text part `t`: when the last entry of the log is a bot
text entry, adding `t` replaces the content of that entry by its old content
followed by `t` and leaves all other entries, and the length, unchanged; when
the log is empty, or its last entry is from the user or is a code entry, adding
`t` appends one bot text entry with content `t`.  Adding a code part appends one
code entry to any log, also when the last entry is a code entry. -/
theorem merge_adjacent_rule (log : List Message) (t : Str) (i : Nat) (hi : i % 2 = 0)
    (ht : trim t ≠ []) :
    (∀ (init : List Message) (last : Message), log = init ++ [last] → last.role = Role.bot →
        last.type = MsgType.text →
        processPart i t log = init ++ [{ last with content := last.content ++ t }]) ∧
      (log = [] → processPart i t log = [Text t]) ∧
      (∀ (init : List Message) (last : Message), log = init ++ [last] →
        last.role = Role.user ∨ last.type = MsgType.code →
        processPart i t log = log ++ [Text t]) ∧
      (∀ (j : Nat) (p : Str), j % 2 = 1 →
        ∃ m : Message, m.type = MsgType.code ∧ m.role = Role.bot ∧
          processPart j p log = log ++ [m]) := by
  have e : processPart i t log = updateLastMessage log t MsgType.text := by
    rw [processPart_text i hi, if_pos ht]
  refine ⟨?_, ?_, ?_, ?_⟩
  · intro init last hl hr hty
    rw [e, hl, updateLastMessage_merge init last t _ hr hty]
  · intro hl
    rw [e, hl]; rfl
  · intro init last hl h
    rw [e, hl, updateLastMessage_append init last t _ ?_]
    · rfl
    · rcases h with h | h
      · exact Or.inl (by rw [h]; decide)
      · exact Or.inr (by rw [h]; decide)
  · intro j p hj
    exact ⟨_, rfl, rfl, processPart_code j hj p log⟩

/-- C7, at the log with the single text entry `"ab"` and the text part `"cd"`. -/
theorem merge_adjacent_rule_witness :
    processPart 0 "cd".toList ([] ++ [Text "ab".toList]) =
      [] ++ [{ Text "ab".toList with content := (Text "ab".toList).content ++ "cd".toList }] :=
  (merge_adjacent_rule ([] ++ [Text "ab".toList]) "cd".toList 0 (by decide) (by decide)).1
    [] (Text "ab".toList) rfl rfl rfl

/-- C8. In every state reached from the initial state by handling any sequence
of socket messages (fragments or markers), also when sends of the user come in
between, no text entry of the log is empty or made of white space only; and at
an even index a part that is empty or made of white space only leaves the log
as it is. -/
theorem no_blank_text (chunks : List Str) (events : List Event) :
    NoBlankText (onMessages chunks initial).messages ∧
      NoBlankText (run events initial).messages ∧
      ∀ (i : Nat) (t : Str) (log : List Message), i % 2 = 0 → trim t = [] →
        processPart i t log = log :=
  ⟨noBlankText_onMessages chunks initial (fun _ hm => by simp [initial] at hm),
    noBlankText_run events initial (fun _ hm => by simp [initial] at hm),
    fun i t log hi ht => processPart_blank i hi t ht log⟩

/-- C8, at the fragment with two adjacent code blocks separated by a blank
text. -/
theorem no_blank_text_witness :
    NoBlankText (onMessages ["```a\nx``` \n ```b\ny```".toList] initial).messages ∧
      processPart 2 " \n ".toList [Code "a".toList "x".toList] = [Code "a".toList "x".toList] :=
  ⟨(no_blank_text _ []).1, (no_blank_text [] []).2.2 2 _ _ (by decide) (by decide)⟩

/-- C9. In every client state, the `"ERROR"` marker leaves the buffer and the
existing log entries unchanged and appends one bot text entry with the fixed
error message, and the `"END"` marker leaves the buffer and the log unchanged. -/
theorem markers_keep_state (st : Client) :
    (onMessage Server.ERROR st).buffer = st.buffer ∧
      (onMessage Server.ERROR st).messages = st.messages ++ [Text errorText] ∧
      (onMessage Server.END st).buffer = st.buffer ∧
      (onMessage Server.END st).messages = st.messages := by
  have h : Server.ERROR ≠ Server.END := by decide
  unfold onMessage
  rw [if_neg h, if_pos rfl, if_pos rfl]
  exact ⟨rfl, rfl, rfl, rfl⟩

/-- C10. After `processBuffer`, when the split of the buffer on the fence gave
an odd number of parts, the buffer is empty and all parts were processed; when
it gave an even number, all parts but the last were processed and the buffer is
the fence followed by the last part; splitting that buffer again gives exactly
the empty part and the last part, so that running `processBuffer` again changes
nothing, and a further fragment that does not close the fence is appended to
the buffer without any change of the log. -/
theorem buffer_remainder (st : Client) :
    ((split fence st.buffer).length % 2 = 1 →
        (processBuffer st).buffer = [] ∧
        (processBuffer st).messages = forLoop 0 (split fence st.buffer) st.messages) ∧
      ((split fence st.buffer).length % 2 = 0 →
        (processBuffer st).buffer = fence ++ lastPart st.buffer ∧
        (processBuffer st).messages =
          forLoop 0 (split fence st.buffer).dropLast st.messages ∧
        split fence (processBuffer st).buffer = [[], lastPart st.buffer] ∧
        (split fence (processBuffer st).buffer).length % 2 = 0 ∧
        processBuffer (processBuffer st) = processBuffer st ∧
        ∀ f : Str, split fence (lastPart st.buffer ++ f) = [lastPart st.buffer ++ f] →
          ingest f (processBuffer st) =
            { processBuffer st with buffer := fence ++ (lastPart st.buffer ++ f) }) := by
  obtain ⟨D, hD⟩ := exists_split_eq st.buffer
  have hP := processBuffer_parts st D _ hD
  have hdl : (split fence st.buffer).dropLast = D := by rw [hD, List.dropLast_concat]
  have hlen : (split fence st.buffer).length = D.length + 1 := by rw [hD]; simp
  constructor
  · intro h
    rw [hP, if_neg (by omega), ← hD]
    exact ⟨rfl, rfl⟩
  · intro h
    have hodd : D.length % 2 = 1 := by omega
    rw [hP, if_pos hodd, hdl]
    have hs : split fence (fence ++ lastPart st.buffer) = [[]] ++ [lastPart st.buffer] := by
      rw [split_fence_append, split_lastPart]; rfl
    refine ⟨rfl, rfl, hs, by rw [hs]; simp, ?_, ?_⟩
    · rw [processBuffer_parts _ [[]] (lastPart st.buffer) hs, if_pos (by simp)]
      simp only [forLoop]
      rw [processPart_blank 0 rfl [] trim_nil]
    · intro f hf
      have hs2 : split fence ((fence ++ lastPart st.buffer) ++ f) =
          [[]] ++ [lastPart st.buffer ++ f] := by
        rw [List.append_assoc, split_fence_append, hf]; rfl
      rw [ingest_parts _ _ _ f [[]] _ hs2, if_pos (by simp)]
      simp only [forLoop]
      rw [processPart_blank 0 rfl [] trim_nil]

/-- C10, at the buffer `"a"`, fence, `"js"`: the fence stays open after the
text `"a"` was processed. -/
theorem buffer_remainder_witness :
    (processBuffer { buffer := "a```js".toList, messages := [], loading := true }).buffer =
        fence ++ lastPart "a```js".toList ∧
      (processBuffer { buffer := "a```js".toList, messages := [], loading := true }).messages =
        forLoop 0 (split fence "a```js".toList).dropLast [] :=
  ⟨((buffer_remainder { buffer := "a```js".toList, messages := [], loading := true }).2
      (by decide)).1,
    ((buffer_remainder { buffer := "a```js".toList, messages := [], loading := true }).2
      (by decide)).2.1⟩

end App
